import Mathlib

/-!
# Verification of the git-training-wheels MCP server

Shallow embedding of `src/git_training_wheels/server.py`.

The program is a single-file MCP server exposing two tools, `git_commit`
(create a commit from staged files and remember its hash/message) and
`fixup_commit` (amend the remembered commit, rewriting history when it is
no longer the branch tip), plus a retrying executor
`run_git_command_with_retry` wrapping every external `git` invocation.

Modelling conventions:

* Commit identities (git hashes) are modelled as natural numbers: the
  object store is an append-only list of commit objects and a commit's
  identity is its index in that list.  Content hashing is abstracted to
  fresh-identity allocation; identity equality tests in the source
  (string comparison of hashes) become `Nat` equality.
* Trees (content snapshots) are association lists from path to content.
* Each external `git` subprocess call may fail nondeterministically (lock
  contention, etc.).  An environment `env : Nat → Option String` assigns
  to the k-th external call of an operation either `none` (the call, after
  the retry wrapper of `run_git_command_with_retry` has done its work,
  succeeds) or `some stderr` (the call ultimately raises
  `CalledProcessError` with that diagnostic text).  The retry wrapper
  itself is modelled and verified separately, on its own attempt traces.
* The `gitrevise` library calls (`Repository`, `get_commit`, `update`,
  `rebase`, `commit_range`) are in-process and deterministic; they are
  modelled from the library behaviour the source relies on:
  `commit_range(base, head)` returns the commits strictly after `base` up
  to `head` inclusive, oldest first, raising when `base` is not an
  ancestor; `Commit.rebase(parent)` returns the commit unchanged when its
  parent already is `parent`, and otherwise replays the commit's change
  (a three-way merge of trees) onto the new parent, raising a merge
  conflict when a file was modified divergently on both sides.
* Python exceptions are modelled with an explicit error type threaded
  through the operation bodies; the `except` clauses at each operation
  boundary become a total rendering function into the report string.
* Report strings follow the source format strings, with hashes rendered
  via `toString` of the numeric identity and without quote characters.
-/

namespace GTW

/-- A content snapshot: an association list from file path to content. -/
abbrev Tree := List (String × String)

/-- Look up the content of a path in a tree. -/
def treeGet (t : Tree) (p : String) : Option String :=
  (t.find? (fun e => e.1 == p)).map (·.2)

/-- Set (or add) the content of a path in a tree. -/
def treeSet (t : Tree) (p : String) (v : String) : Tree :=
  match t with
  | [] => [(p, v)]
  | e :: rest => if e.1 == p then (p, v) :: rest else e :: treeSet rest p v

/-- Remove a path from a tree. -/
def treeErase (t : Tree) (p : String) : Tree :=
  t.filter (fun e => e.1 != p)

/-- A commit object: parent link, snapshot, and metadata.  Mirrors the
data model of the source (gitrevise commits created by the server always
have at most one parent). -/
structure CommitObj where
  parent : Option Nat
  tree : Tree
  author : String
  message : String
  timestamp : Nat
deriving Repr, DecidableEq

/-- The append-only commit object store. -/
abbrev Store := List CommitObj

/-- The mutable repository state visible to the server: object store,
branch pointer (`HEAD`; `none` for an unborn branch), index (staging
area) and working tree. -/
structure St where
  store : Store
  branch : Option Nat
  index : Tree
  work : Tree
deriving Repr, DecidableEq

/-- Parent identity of a commit in a store. -/
def parentOf (store : Store) (oid : Nat) : Option Nat :=
  (store[oid]?).bind (·.parent)

/-- Message of a commit in a store (for statements). -/
def msgOf (store : Store) (oid : Nat) : Option String :=
  (store[oid]?).map (·.message)

/-- Author of a commit in a store (for statements). -/
def authorOf (store : Store) (oid : Nat) : Option String :=
  (store[oid]?).map (·.author)

/-- Timestamp of a commit in a store (for statements). -/
def timeOf (store : Store) (oid : Nat) : Option Nat :=
  (store[oid]?).map (·.timestamp)

/-- Well-formedness of a store: every parent link points strictly
downwards.  All commits created by the modelled operations satisfy this,
since a new commit is appended at index `store.length` with an existing
commit as parent. -/
def WFStore (store : Store) : Prop :=
  ∀ (i : Nat) (c : CommitObj) (p : Nat),
    store[i]? = some c → c.parent = some p → p < i

/-- Ancestry chain of a commit, newest first, ending at the root.  The
fuel argument bounds the walk; under `WFStore` parent links strictly
decrease, so fuel `oid` always suffices (see `chainGo_fuel`). -/
def chainGo (store : Store) : Nat → Nat → List Nat
  | 0, oid => [oid]
  | fuel + 1, oid =>
    oid :: (match parentOf store oid with
            | none => []
            | some p => chainGo store fuel p)

/-- Ancestry chain of a commit, newest first (commit itself included). -/
def chain (store : Store) (oid : Nat) : List Nat :=
  chainGo store oid oid

/-- Staging one path: `git add p` copies the working-tree content of `p`
into the index; for a tracked path removed from the working tree it
stages the deletion. -/
def stageFile (work : Tree) (index : Tree) (p : String) : Tree :=
  match treeGet work p with
  | some v => treeSet index p v
  | none => treeErase index p

/-- Staging a list of paths, in order (`git add` on the file list). -/
def stageFiles (work : Tree) (files : List String) (index : Tree) : Tree :=
  files.foldl (fun idx p => stageFile work idx p) index

/-- Three-way merge of one file: `base` is the content at the original
parent, `ours` at the new parent, `theirs` in the commit being replayed.
Returns `none` on a conflict (both sides changed, divergently). -/
def mergeFile (base ours theirs : Option String) : Option (Option String) :=
  if ours = theirs then some ours
  else if ours = base then some theirs
  else if theirs = base then some ours
  else none

/-- Keys to consider when merging three trees. -/
def mergeKeys (base ours theirs : Tree) : List String :=
  (base.map (·.1) ++ ours.map (·.1) ++ theirs.map (·.1)).dedup

/-- Merge three trees file by file over a key list; `none` on conflict. -/
def mergeTreesGo (base ours theirs : Tree) : List String → Option Tree
  | [] => some []
  | k :: ks =>
    match mergeFile (treeGet base k) (treeGet ours k) (treeGet theirs k) with
    | none => none
    | some none => mergeTreesGo base ours theirs ks
    | some (some v) => (mergeTreesGo base ours theirs ks).map (fun t => (k, v) :: t)

/-- Three-way merge of trees, as performed by a gitrevise rebase step;
`none` models a raised `MergeConflict`. -/
def mergeTrees (base ours theirs : Tree) : Option Tree :=
  mergeTreesGo base ours theirs (mergeKeys base ours theirs)

/-- One gitrevise rebase step: `commit.rebase(parent)`.  If the commit's
parent already is `newParent` the commit is returned unchanged;
otherwise its change (diff against its original parent) is replayed onto
`newParent` by three-way merge, preserving author, message and
timestamp, and a fresh object is appended.  `none` models a raised
exception (missing object or merge conflict). -/
def rebaseCommit (store : Store) (coid : Nat) (newParent : Nat) :
    Option (Store × Nat) :=
  match store[coid]?, store[newParent]? with
  | some c, some np =>
    if c.parent = some newParent then some (store, coid)
    else
      let baseTree : Tree :=
        match c.parent with
        | none => []
        | some p => match store[p]? with
                    | some pc => pc.tree
                    | none => []
      match mergeTrees baseTree np.tree c.tree with
      | none => none
      | some t =>
        some (store ++ [{ c with parent := some newParent, tree := t }],
              store.length)
  | _, _ => none

/-- The rebase fold of `fixup_commit` (lines 188–191 of the source):
`for commit in commits: if base: commit = commit.rebase(base); base = commit`.
Returns the (possibly partially) extended store, and the final value of
`base` on success; second component `none` models an exception escaping
the loop, with the objects appended so far retained in the store. -/
def rebaseChain : Store → Option Nat → List Nat → Store × Option (Option Nat)
  | store, base, [] => (store, some base)
  | store, base, c :: rest =>
    match base with
    | none => rebaseChain store (some c) rest
    | some b =>
      match rebaseCommit store c b with
      | none => (store, none)
      | some (store1, c1) => rebaseChain store1 (some c1) rest

/-- Modelled gitrevise `commit_range(base, head)`: the commits strictly
after `base` up to `head` inclusive, oldest first; `none` models the
raised error when `base` does not lie on the ancestry chain of `head`
(with `base = none` the whole chain from the root is returned). -/
def walkAfter (store : Store) (base : Option Nat) (head : Nat) :
    Option (List Nat) :=
  match base with
  | none => some (chain store head).reverse
  | some b =>
    if b ∈ chain store head then
      some ((chain store head).takeWhile (fun x => x != b)).reverse
    else none

/-- The replacement loop of `fixup_commit` (lines 177–180): replace the
first occurrence of `target` in the commit list by `newId`. -/
def replaceFirst : List Nat → Nat → Nat → List Nat
  | [], _, _ => []
  | x :: xs, target, newId =>
    if x = target then newId :: xs else x :: replaceFirst xs target newId

/-! ## The Resilient Operation Executor (`run_git_command_with_retry`) -/

/-- Outcome of one `subprocess.run` attempt: success with captured
stdout, or a raised `CalledProcessError` carrying the diagnostic text
(`e.stderr` when non-empty, else `str(e)`). -/
inductive AttemptResult where
  | success (out : String)
  | failure (stderr : String)
deriving Repr, DecidableEq

/-- Whether `pat` occurs at the start of `l` (over character lists). -/
def startsWithChars : List Char → List Char → Bool
  | [], _ => true
  | _ :: _, [] => false
  | p :: ps, c :: cs => p == c && startsWithChars ps cs

/-- Substring containment over character lists (Python
`phrase in error_msg`). -/
def hasSubstrChars (pat : List Char) : List Char → Bool
  | [] => pat.isEmpty
  | c :: cs => startsWithChars pat (c :: cs) || hasSubstrChars pat cs

/-- The transient-lock signatures of lines 46–52 of the source. -/
def lockPhrases : List String :=
  ["another git process", "index.lock", "unable to create",
   "resource temporarily unavailable", "cannot lock ref"]

/-- Classification of a failure diagnostic as a transient concurrency
error: the diagnostic is lowercased (line 43) and tested for each
(lowercase) signature as a substring. -/
def isConcurrencyError (stderr : String) : Bool :=
  lockPhrases.any (fun p => hasSubstrChars p.data (stderr.data.map Char.toLower))

/-- MAX_RETRIES of line 16. -/
def MAX_RETRIES : Nat := 5

/-- INITIAL_BACKOFF of line 17 (0.5 seconds, expressed in integral
milliseconds so that delays stay exactly representable). -/
def INITIAL_BACKOFF : Nat := 500

/-- MAX_BACKOFF of line 18 (10 seconds, in milliseconds). -/
def MAX_BACKOFF : Nat := 10000

deriving instance DecidableEq for Except

/-- Observable trace of one executor run: final result (error carries
the propagated diagnostic), the sequence of sleep durations in seconds,
and the number of attempts made. -/
structure RetryTrace where
  result : Except String String
  sleeps : List Nat
  attempts : Nat
deriving Repr, DecidableEq

/-- The retry loop of lines 34–64, driven by the attempt oracle `f`
(the outcome of the k-th `subprocess.run`).  `remaining` counts loop
iterations left (`range(MAX_RETRIES)`); on a failure matching a lock
signature with attempts remaining it sleeps `backoff` and doubles it,
capped at `MAX_BACKOFF`; otherwise it re-raises. -/
def retryGo (f : Nat → AttemptResult) :
    Nat → Nat → Nat → List Nat → Option String → RetryTrace
  | 0, attempt, _, sleeps, lastErr =>
    -- line 64: raise last_error (only reachable if the loop body never
    -- returned or raised, which the control flow below rules out)
    { result := .error (lastErr.getD ""), sleeps := sleeps, attempts := attempt }
  | remaining + 1, attempt, backoff, sleeps, _lastErr =>
    match f attempt with
    | .success out =>
      { result := .ok out, sleeps := sleeps, attempts := attempt + 1 }
    | .failure stderr =>
      if isConcurrencyError stderr ∧ attempt < MAX_RETRIES - 1 then
        retryGo f remaining (attempt + 1) (min (backoff * 2) MAX_BACKOFF)
          (sleeps ++ [backoff]) (some stderr)
      else
        { result := .error stderr, sleeps := sleeps, attempts := attempt + 1 }

/-- `run_git_command_with_retry` (lines 20–64): run a git command with
retry logic for transient lock contention. -/
def run_git_command_with_retry (f : Nat → AttemptResult) : RetryTrace :=
  retryGo f MAX_RETRIES 0 INITIAL_BACKOFF [] none

/-- Whether an attempt outcome is a failure whose diagnostic text
matches a transient-lock signature. -/
def matchesLock : AttemptResult → Bool
  | .failure stderr => isConcurrencyError stderr
  | .success _ => false

/-! ## Errors, reports, memory, environment -/

/-- Python exceptions the operation bodies can raise:
`subprocess.CalledProcessError` (with diagnostic text), or any other
`Exception` (gitrevise merge conflicts, unresolvable objects, ...). -/
inductive PyErr where
  | cpe (stderr : String)
  | exc (msg : String)
deriving Repr, DecidableEq

/-- error_msg = e.stderr if e.stderr else str(e)  (lines 99 and 199). -/
def cpeText (stderr : String) : String :=
  if stderr = "" then "CalledProcessError" else stderr

/-- The except clauses of `git_commit` (lines 98–102). -/
def renderCommitErr : PyErr → String
  | .cpe stderr => "Git commit failed: " ++ cpeText stderr
  | .exc msg => "Error: " ++ msg

/-- The except clauses of `fixup_commit` (lines 198–204). -/
def renderFixupErr : PyErr → String
  | .cpe stderr => "Git operation failed: " ++ cpeText stderr
  | .exc msg => "Error: " ++ msg

/-- Last-Commit Memory: the `last_commit_info` dict of line 13 when set. -/
structure MemEntry where
  hash : Nat
  message : String
deriving Repr, DecidableEq

/-- Failure environment for the external `git` calls of one operation:
`env k = none` means the k-th external call (counted from 0, after the
retry wrapper has run) succeeds; `some stderr` means it ultimately
raises `CalledProcessError` with that diagnostic text. -/
abbrev Env := Nat → Option String

/-- The environment in which every external call succeeds. -/
def cleanEnv : Env := fun _ => none

/-- Result of one tool invocation: the returned report string, the
repository state afterwards and the Last-Commit Memory afterwards. -/
structure OpResult where
  report : String
  state : St
  memory : Option MemEntry
deriving Repr, DecidableEq

/-- Tree the branch tip currently points at (empty for an unborn
branch); used for the nothing-to-commit check of `git commit`. -/
def headTree (s : St) : Tree :=
  match s.branch with
  | none => []
  | some h => match s.store[h]? with
              | some c => c.tree
              | none => []

/-- Author recorded by the modelled backend for new commits. -/
def defaultAuthor : String := "author"

/-! ## git_commit (lines 66–102) -/

/-- Body of `git_commit` inside the try block: stage the files, create
the commit, read back HEAD.  Returns the raised error or the new commit
identity, together with the repository state reached. -/
def gitCommitBody (env : Env) (s : St) (files : List String)
    (message : String) : Except PyErr Nat × St :=
  -- call 0: git add <files>  (line 80)
  match env 0 with
  | some e => (.error (.cpe e), s)
  | none =>
    let s1 : St := { s with index := stageFiles s.work files s.index }
    -- call 1: git commit -m <message>  (line 83)
    match env 1 with
    | some e => (.error (.cpe e), s1)
    | none =>
      if s1.index = headTree s1 then
        -- git exits non-zero when there is nothing to commit
        (.error (.cpe "nothing to commit, working tree clean"), s1)
      else
        let cid : Nat := s1.store.length
        let c : CommitObj :=
          { parent := s1.branch, tree := s1.index, author := defaultAuthor,
            message := message, timestamp := s1.store.length }
        let s2 : St := { s1 with store := s1.store ++ [c], branch := some cid }
        -- call 2: git rev-parse HEAD  (line 86)
        match env 2 with
        | some e => (.error (.cpe e), s2)
        | none => (.ok cid, s2)

/-- The `git_commit` tool (lines 66–102): on success records the new
commit in Last-Commit Memory; every raised error is rendered into the
failure report and the memory is left untouched. -/
def git_commit (env : Env) (mem : Option MemEntry) (s : St)
    (files : List String) (message : String) : OpResult :=
  match gitCommitBody env s files message with
  | (.ok cid, s1) =>
    { report := "Successfully committed " ++ toString files.length ++
        " file(s) (commit: " ++ toString cid ++ ")",
      state := s1, memory := some { hash := cid, message := message } }
  | (.error e, s1) =>
    { report := renderCommitErr e, state := s1, memory := mem }

/-! ## fixup_commit (lines 104–204) -/

/-- The three ways the body of `fixup_commit` can return normally:
fast-path amend of HEAD (line 136), general-path rewrite via gitrevise
(line 196), or the not-found early return (line 149). -/
inductive BodyOut where
  | fast (saved : Nat)
  | general (target : Nat) (newTip : Nat)
  | notFound (savedHash : Nat) (savedMsg : String)
deriving Repr, DecidableEq

/-- Modelled `git log --oneline --grep <anchored message>` (line 146):
the commits reachable from `head`, newest first, whose message is an
exact full match of `msg`.  The source anchors the pattern with the
start-of-line and end-of-line markers, which on the single-line messages
of this model is exact full-message matching (the backend capability the
spec names search-log-by-exact-message). -/
def logGrep (s : St) (head : Nat) (msg : String) : List Nat :=
  (chain s.store head).filter (fun o => msgOf s.store o == some msg)

/-- Outcome of the Commit Locator (lines 139–152): the resolved target
together with the index the next external call will get, or the
no-match outcome that triggers the not-found early return. -/
inductive ResolveOut where
  | found (t : Nat) (nextCall : Nat)
  | noMatch
deriving Repr, DecidableEq

/-- Fallback search by message (lines 144–152): call 3 is the log
search; an empty result is the no-match outcome, otherwise the first
(most recent) matching entry is the target. -/
def resolveByMessage (env : Env) (s : St) (head : Nat) (msg : String) :
    Except PyErr ResolveOut :=
  match env 3 with
  | some e => .error (.cpe e)
  | none =>
    match logGrep s head msg with
    | [] => .ok .noMatch
    | t :: _ => .ok (.found t 4)

/-- The Commit Locator (lines 139–152).  Call 2 is
`git rev-parse <hash>^<commit>`; any `CalledProcessError` raised by it —
whether injected by the environment or because the identity no longer
denotes an existing commit — routes to the search by message. -/
def resolveTarget (env : Env) (s : St) (head : Nat) (h : Nat)
    (msg : String) : Except PyErr ResolveOut :=
  match env 2 with
  | some _ => resolveByMessage env s head msg
  | none =>
    if h < s.store.length then .ok (.found h 3)
    else resolveByMessage env s head msg

/-- The general-path rewrite (lines 154–196), entered with the resolved
target `t` and the index `k` of the next external call: write the staged
tree, build the replacement commit, compute the commit range (falling
back to a root-anchored range when `target~1` cannot be resolved or is
not an ancestor), replace the target in the range, run the rebase fold,
and finally publish with `git reset --hard` (call `k+1`). -/
def generalRest (env : Env) (s : St) (head : Nat) (t : Nat) (k : Nat) :
    Except PyErr BodyOut × St :=
  -- target = repo.get_commit(target_commit)  (line 158)
  match s.store[t]? with
  | none => (.error (.exc "unknown object"), s)
  | some tc =>
    -- call k: git write-tree  (line 161)
    match env k with
    | some e => (.error (.cpe e), s)
    | none =>
      let newId : Nat := s.store.length
      -- new_commit = target.update(tree = staged tree)  (line 165)
      let store1 : Store := s.store ++ [{ tc with tree := s.index }]
      let s1 : St := { s with store := store1 }
      -- commits = commit_range(target~1, HEAD), falling back on any
      -- raise to commit_range(target, HEAD) with base = None (166–174)
      let ranged : Option (List Nat × Option Nat) :=
        match tc.parent with
        | none => (walkAfter store1 (some t) head).map (fun l => (l, none))
        | some bp =>
          match walkAfter store1 (some bp) head with
          | some l => some (l, some bp)
          | none => (walkAfter store1 (some t) head).map (fun l => (l, none))
      match ranged with
      | none => (.error (.exc "commit range resolution failed"), s1)
      | some (commits, baseOpt) =>
        let commits1 := replaceFirst commits t newId
        match rebaseChain store1 baseOpt commits1 with
        | (store2, none) =>
          (.error (.exc "merge conflict while rebasing"),
           { s1 with store := store2 })
        | (store2, some obase) =>
          match obase with
          | none =>
            -- base.oid.hex with base = None raises AttributeError
            (.error (.exc "NoneType has no attribute oid"),
             { s1 with store := store2 })
          | some newTip =>
            -- call k+1: git reset --hard <new tip>  (line 194)
            match env (k + 1) with
            | some e => (.error (.cpe e), { s1 with store := store2 })
            | none =>
              match store2[newTip]? with
              | none =>
                (.error (.exc "unknown object"), { s1 with store := store2 })
              | some ntc =>
                (.ok (.general t newTip),
                 { store := store2, branch := some newTip,
                   index := ntc.tree, work := ntc.tree })

/-- Body of `fixup_commit` inside the try block, after the memory check
(lines 123–196): read HEAD (call 0), stage the files (call 1), then
either amend in place (fast path, call 2) or locate the target and run
the general rewrite. -/
def fixupBody (env : Env) (m : MemEntry) (s : St) (files : List String) :
    Except PyErr BodyOut × St :=
  -- call 0: git rev-parse HEAD  (line 127)
  match env 0 with
  | some e => (.error (.cpe e), s)
  | none =>
    match s.branch with
    | none => (.error (.cpe "HEAD: unknown revision"), s)
    | some head =>
      -- call 1: git add <files>  (line 131)
      match env 1 with
      | some e => (.error (.cpe e), s)
      | none =>
        let s1 : St := { s with index := stageFiles s.work files s.index }
        if m.hash = head then
          -- call 2: git commit --amend --no-edit  (line 135)
          match env 2 with
          | some e => (.error (.cpe e), s1)
          | none =>
            match s1.store[head]? with
            | none => (.error (.exc "unknown object"), s1)
            | some c =>
              (.ok (.fast m.hash),
               { s1 with store := s1.store ++ [{ c with tree := s1.index }],
                         branch := some s1.store.length })
        else
          match resolveTarget env s1 head m.hash m.message with
          | .error e => (.error e, s1)
          | .ok .noMatch => (.ok (.notFound m.hash m.message), s1)
          | .ok (.found t k) => generalRest env s1 head t k

/-- The usage-error report of line 121. -/
def usageMsg : String :=
  "Error: No previous commit found. Use git_commit first."

/-- The success and not-found report strings of `fixup_commit`
(lines 136, 149 and 196; numeric identities rendered with toString,
quote characters omitted). -/
def renderBodyOut (files : List String) : BodyOut → String
  | .fast saved => "Successfully amended HEAD commit " ++ toString saved ++
      " with " ++ toString files.length ++ " file(s)"
  | .general target _ => "Successfully edited commit " ++ toString target ++
      " with " ++ toString files.length ++ " file(s) using gitrevise"
  | .notFound h msg => "Error: Could not find commit with hash " ++
      toString h ++ " or message " ++ msg

/-- The `fixup_commit` tool (lines 104–204): usage check against
Last-Commit Memory, then the body, with every raised error rendered into
the failure report.  The memory is read, never written (the source
declares it global but contains no assignment to it). -/
def fixup_commit (env : Env) (mem : Option MemEntry) (s : St)
    (files : List String) : OpResult :=
  match mem with
  | none => { report := usageMsg, state := s, memory := mem }
  | some m =>
    match fixupBody env m s files with
    | (.ok out, s1) =>
      { report := renderBodyOut files out, state := s1, memory := mem }
    | (.error e, s1) =>
      { report := renderFixupErr e, state := s1, memory := mem }

/-- Condition under which an invocation of `fixup_commit` reaches the
general rewrite path (the else branch of line 137): non-empty memory,
HEAD readable, staging succeeded, and the remembered identity differs
from the tip. -/
def enteredGeneral (env : Env) (mem : Option MemEntry) (s : St) : Bool :=
  match mem, env 0, s.branch, env 1 with
  | some m, none, some head, none => decide (m.hash ≠ head)
  | _, _, _, _ => false

/-- Discriminator for a successful general-path rewrite outcome. -/
def isGeneralSuccess : Except PyErr BodyOut → Bool
  | .ok (.general _ _) => true
  | _ => false

/-- Well-formedness of a repository state: well-formed store and a
branch pointer into the store. -/
def WFSt (s : St) : Prop :=
  WFStore s.store ∧ ∀ h, s.branch = some h → h < s.store.length

/-- A small three-commit store used to instantiate the theorems on
concrete inputs: commit 0 (root) ← commit 1 ← commit 2. -/
def wStore : Store :=
  [ { parent := none, tree := [("a", "1")], author := "au",
      message := "m0", timestamp := 0 },
    { parent := some 0, tree := [("a", "1"), ("b", "2")], author := "au",
      message := "m1", timestamp := 1 },
    { parent := some 1, tree := [("a", "1"), ("b", "2"), ("c", "3")],
      author := "au", message := "m2", timestamp := 2 } ]

/-- A repository state over `wStore` with the branch at commit 2, a
clean index and one modified working-tree file `f`. -/
def wState : St :=
  { store := wStore, branch := some 2,
    index := [("a", "1"), ("b", "2"), ("c", "3")],
    work := [("a", "1"), ("b", "2"), ("c", "3"), ("f", "v")] }

/-- An environment whose call 3 (the first gitrevise-phase external
call) fails with a lock diagnostic; all other calls succeed. -/
def envFail3 : Env := fun k => if k = 3 then some "boom" else none

/-! ## Basic lemmas about stores and ancestry chains -/

lemma parentOf_lt {store : Store} (hwf : WFStore store) {oid p : Nat}
    (h : parentOf store oid = some p) : p < oid := by
  unfold parentOf at h
  cases hc : store[oid]? with
  | none => rw [hc] at h; simp at h
  | some c =>
    rw [hc] at h
    simp only [Option.some_bind] at h
    exact hwf oid c p hc h

lemma chainGo_fuel {store : Store} (hwf : WFStore store) :
    ∀ oid fuel₁ fuel₂, oid ≤ fuel₁ → oid ≤ fuel₂ →
      chainGo store fuel₁ oid = chainGo store fuel₂ oid := by
  intro oid
  induction oid using Nat.strong_induction_on with
  | _ oid ih =>
    intro fuel₁ fuel₂ h₁ h₂
    cases fuel₁ with
    | zero =>
      have h0 : oid = 0 := Nat.le_zero.mp h₁
      subst h0
      cases fuel₂ with
      | zero => rfl
      | succ f₂ =>
        simp only [chainGo]
        cases hp : parentOf store 0 with
        | none => rfl
        | some p =>
          have h1 : p < 0 := parentOf_lt hwf hp
          exact absurd h1 (Nat.not_lt_zero p)
    | succ f₁ =>
      cases fuel₂ with
      | zero =>
        have h0 : oid = 0 := Nat.le_zero.mp h₂
        subst h0
        simp only [chainGo]
        cases hp : parentOf store 0 with
        | none => rfl
        | some p =>
          have h1 : p < 0 := parentOf_lt hwf hp
          exact absurd h1 (Nat.not_lt_zero p)
      | succ f₂ =>
        simp only [chainGo]
        cases hp : parentOf store oid with
        | none => rfl
        | some p =>
          have hpo : p < oid := parentOf_lt hwf hp
          have hf₁ : p ≤ f₁ := by omega
          have hf₂ : p ≤ f₂ := by omega
          show oid :: chainGo store f₁ p = oid :: chainGo store f₂ p
          exact congrArg (oid :: ·) (ih p hpo f₁ f₂ hf₁ hf₂)

lemma chain_parent_none {store : Store} {oid : Nat}
    (h : parentOf store oid = none) : chain store oid = [oid] := by
  unfold chain
  cases oid with
  | zero => rfl
  | succ n => simp [chainGo, h]

lemma chain_parent_some {store : Store} (hwf : WFStore store) {oid p : Nat}
    (h : parentOf store oid = some p) : chain store oid = oid :: chain store p := by
  have hpo : p < oid := parentOf_lt hwf h
  unfold chain
  cases oid with
  | zero => exact absurd hpo (Nat.not_lt_zero p)
  | succ m =>
    simp only [chainGo, h]
    have hm : p ≤ m := by omega
    show (m + 1) :: chainGo store m p = (m + 1) :: chainGo store p p
    exact congrArg _ (chainGo_fuel hwf p m p hm le_rfl)

lemma chain_eq_cons (store : Store) (oid : Nat) :
    ∃ tl, chain store oid = oid :: tl := by
  unfold chain
  cases oid with
  | zero => exact ⟨[], rfl⟩
  | succ m => exact ⟨_, rfl⟩

lemma chain_head (store : Store) (oid : Nat) :
    (chain store oid).head? = some oid := by
  obtain ⟨tl, htl⟩ := chain_eq_cons store oid
  rw [htl]; rfl

lemma chain_mem_le {store : Store} (hwf : WFStore store) :
    ∀ oid x, x ∈ chain store oid → x ≤ oid := by
  intro oid
  induction oid using Nat.strong_induction_on with
  | _ oid ih =>
    intro x hx
    cases hp : parentOf store oid with
    | none =>
      rw [chain_parent_none hp] at hx
      simp at hx
      omega
    | some p =>
      rw [chain_parent_some hwf hp] at hx
      rcases List.mem_cons.mp hx with h | h
      · omega
      · have hpo : p < oid := parentOf_lt hwf hp
        have hxp : x ≤ p := ih p hpo x h
        omega

lemma getElem?_append_lt {α : Type} (l₁ l₂ : List α) (i : Nat)
    (h : i < l₁.length) : (l₁ ++ l₂)[i]? = l₁[i]? := by
  rw [List.getElem?_append]
  simp [h]

lemma parentOf_append {store ext : Store} {i : Nat} (h : i < store.length) :
    parentOf (store ++ ext) i = parentOf store i := by
  unfold parentOf; rw [getElem?_append_lt _ _ _ h]

lemma msgOf_append {store ext : Store} {i : Nat} (h : i < store.length) :
    msgOf (store ++ ext) i = msgOf store i := by
  unfold msgOf; rw [getElem?_append_lt _ _ _ h]

lemma authorOf_append {store ext : Store} {i : Nat} (h : i < store.length) :
    authorOf (store ++ ext) i = authorOf store i := by
  unfold authorOf; rw [getElem?_append_lt _ _ _ h]

lemma timeOf_append {store ext : Store} {i : Nat} (h : i < store.length) :
    timeOf (store ++ ext) i = timeOf store i := by
  unfold timeOf; rw [getElem?_append_lt _ _ _ h]

lemma WFStore_snoc {store : Store} {c : CommitObj} (hwf : WFStore store)
    (hc : ∀ p, c.parent = some p → p < store.length) :
    WFStore (store ++ [c]) := by
  intro i d p hd hp
  by_cases hi : i < store.length
  · rw [getElem?_append_lt _ _ _ hi] at hd
    exact hwf i d p hd hp
  · have hge : store.length ≤ i := Nat.le_of_not_lt hi
    rw [List.getElem?_append_right hge] at hd
    have hie : i = store.length := by
      by_contra hne
      have h1 : 1 ≤ i - store.length := by omega
      rw [List.getElem?_eq_none (by simpa using h1)] at hd
      exact Option.noConfusion hd
    subst hie
    simp at hd
    subst hd
    exact hc p hp

lemma chainGo_append {store ext : Store} (hwf : WFStore store) :
    ∀ oid, oid < store.length → ∀ fuel,
      chainGo (store ++ ext) fuel oid = chainGo store fuel oid := by
  intro oid
  induction oid using Nat.strong_induction_on with
  | _ oid ih =>
    intro ho fuel
    cases fuel with
    | zero => rfl
    | succ f =>
      simp only [chainGo, parentOf_append ho]
      cases hp : parentOf store oid with
      | none => rfl
      | some p =>
        have hpo : p < oid := parentOf_lt hwf hp
        have hpl : p < store.length := by omega
        show oid :: chainGo (store ++ ext) f p = oid :: chainGo store f p
        exact congrArg (oid :: ·) (ih p hpo hpl f)

lemma chain_append {store ext : Store} (hwf : WFStore store) {oid : Nat}
    (ho : oid < store.length) : chain (store ++ ext) oid = chain store oid :=
  chainGo_append hwf oid ho oid

lemma chain_chain'_lt {store : Store} (hwf : WFStore store) :
    ∀ oid, List.Chain' (fun a b => b < a) (chain store oid) := by
  intro oid
  induction oid using Nat.strong_induction_on with
  | _ oid ih =>
    cases hp : parentOf store oid with
    | none => rw [chain_parent_none hp]; simp
    | some p =>
      rw [chain_parent_some hwf hp]
      have hpo : p < oid := parentOf_lt hwf hp
      refine List.chain'_cons'.mpr ⟨?_, ih p hpo⟩
      intro y hy
      rw [chain_head store p] at hy
      simp at hy
      omega

lemma chain_pairwise_lt {store : Store} (hwf : WFStore store) (oid : Nat) :
    List.Pairwise (fun a b => b < a) (chain store oid) := by
  rw [← List.chain'_iff_pairwise]
  exact chain_chain'_lt hwf oid

lemma chain_chain'_parent {store : Store} (hwf : WFStore store) :
    ∀ oid, List.Chain' (fun a b => parentOf store a = some b)
      (chain store oid) := by
  intro oid
  induction oid using Nat.strong_induction_on with
  | _ oid ih =>
    cases hp : parentOf store oid with
    | none => rw [chain_parent_none hp]; simp
    | some p =>
      rw [chain_parent_some hwf hp]
      have hpo : p < oid := parentOf_lt hwf hp
      refine List.chain'_cons'.mpr ⟨?_, ih p hpo⟩
      intro y hy
      rw [chain_head store p] at hy
      simp at hy
      subst hy
      exact hp

lemma takeWhile_middle {b : Nat} :
    ∀ (l₁ l₂ : List Nat), (∀ x ∈ l₁, x ≠ b) →
      (l₁ ++ b :: l₂).takeWhile (fun x => x != b) = l₁ := by
  intro l₁ l₂ h
  induction l₁ with
  | nil => simp [List.takeWhile_cons]
  | cons a t ih =>
    have ha : (a != b) = true := by
      have := h a (by simp)
      simpa using this
    simp only [List.cons_append, List.takeWhile_cons, ha, if_true]
    rw [ih (fun x hx => h x (by simp [hx]))]

lemma replaceFirst_cons_self (ds : List Nat) (t n : Nat) :
    replaceFirst (t :: ds) t n = n :: ds := by
  simp [replaceFirst]

lemma replaceFirst_of_not_mem :
    ∀ (l : List Nat) (t n : Nat), t ∉ l → replaceFirst l t n = l := by
  intro l t n h
  induction l with
  | nil => rfl
  | cons a xs ih =>
    have ha : a ≠ t := by
      intro he; exact h (by simp [he])
    simp only [replaceFirst, if_neg ha]
    rw [ih (fun hm => h (by simp [hm]))]

lemma filter_head?_eq_find? {α : Type} (p : α → Bool) :
    ∀ l : List α, (l.filter p).head? = l.find? p := by
  intro l
  induction l with
  | nil => rfl
  | cons x xs ih =>
    by_cases h : p x <;> simp [List.filter_cons, List.find?, h, ih]

lemma rebaseCommit_spec {store : Store} {c b : Nat} {store' : Store} {c' : Nat}
    (hwf : WFStore store) (hc : c < store.length) (hb : b < store.length)
    (h : rebaseCommit store c b = some (store', c')) :
    (∃ ext, store' = store ++ ext) ∧
    WFStore store' ∧
    c' < store'.length ∧
    store.length ≤ store'.length ∧
    parentOf store' c' = some b ∧
    msgOf store' c' = msgOf store c ∧
    authorOf store' c' = authorOf store c ∧
    timeOf store' c' = timeOf store c := by
  have hcc : store[c]? = some store[c] := List.getElem?_eq_getElem hc
  have hbb : store[b]? = some store[b] := List.getElem?_eq_getElem hb
  unfold rebaseCommit at h
  rw [hcc, hbb] at h
  dsimp only at h
  by_cases hpar : store[c].parent = some b
  · rw [if_pos hpar] at h
    simp only [Option.some.injEq, Prod.mk.injEq] at h
    obtain ⟨h1, h2⟩ := h
    subst h1; subst h2
    refine ⟨⟨[], by simp⟩, hwf, hc, le_rfl, ?_, rfl, rfl, rfl⟩
    unfold parentOf
    rw [hcc]
    simpa using hpar
  · rw [if_neg hpar] at h
    cases hm : mergeTrees
        (match store[c].parent with
         | none => []
         | some p => match store[p]? with
                     | some pc => pc.tree
                     | none => []) store[b].tree store[c].tree with
    | none => rw [hm] at h; exact Option.noConfusion h
    | some t =>
      rw [hm] at h
      simp only [Option.some.injEq, Prod.mk.injEq] at h
      obtain ⟨h1, h2⟩ := h
      subst h1
      subst h2
      have hlook : (store ++ [{ store[c] with parent := some b, tree := t }])[store.length]? =
          some { store[c] with parent := some b, tree := t } :=
        List.getElem?_concat_length _ _
      refine ⟨⟨_, rfl⟩, ?_, by simp, by simp, ?_, ?_, ?_, ?_⟩
      · refine WFStore_snoc hwf ?_
        intro p hp
        simp only at hp
        cases hp
        exact hb
      · unfold parentOf
        rw [hlook]
        rfl
      · unfold msgOf
        rw [hlook, hcc]
        rfl
      · unfold authorOf
        rw [hlook, hcc]
        rfl
      · unfold timeOf
        rw [hlook, hcc]
        rfl

lemma parentOf_congr {s1 s2 : Store} {i : Nat} (h : s2[i]? = s1[i]?) :
    parentOf s2 i = parentOf s1 i := by
  unfold parentOf; rw [h]

lemma msgOf_congr {s1 s2 : Store} {i : Nat} (h : s2[i]? = s1[i]?) :
    msgOf s2 i = msgOf s1 i := by
  unfold msgOf; rw [h]

lemma authorOf_congr {s1 s2 : Store} {i : Nat} (h : s2[i]? = s1[i]?) :
    authorOf s2 i = authorOf s1 i := by
  unfold authorOf; rw [h]

lemma timeOf_congr {s1 s2 : Store} {i : Nat} (h : s2[i]? = s1[i]?) :
    timeOf s2 i = timeOf s1 i := by
  unfold timeOf; rw [h]

/-- Behaviour of the rebase fold on a successful run starting from an
existing base: the store is only extended, the fold produces one new (or
reused) commit per input commit, the final base is the new tip, the
rewritten commits form the new ancestry chain on top of the base chain,
and each rewritten commit keeps the message, author and timestamp of the
commit it replays. -/
lemma rebaseChain_spec :
    ∀ (ds : List Nat) (store : Store) (b : Nat),
      WFStore store → b < store.length → (∀ d ∈ ds, d < store.length) →
      ∀ (store2 : Store) (obase : Option Nat),
        rebaseChain store (some b) ds = (store2, some obase) →
        ∃ (tip : Nat) (ns : List Nat),
          obase = some tip ∧
          ns.length = ds.length ∧
          WFStore store2 ∧
          store.length ≤ store2.length ∧
          (∀ i, i < store.length → store2[i]? = store[i]?) ∧
          tip < store2.length ∧
          chain store2 tip = ns.reverse ++ chain store b ∧
          (∀ j, j < ds.length →
            ∃ nj dj, ns[j]? = some nj ∧ ds[j]? = some dj ∧
              msgOf store2 nj = msgOf store dj ∧
              authorOf store2 nj = authorOf store dj ∧
              timeOf store2 nj = timeOf store dj) := by
  intro ds
  induction ds with
  | nil =>
    intro store b hwf hb _ store2 obase h
    simp only [rebaseChain, Prod.mk.injEq] at h
    obtain ⟨h1, h2⟩ := h
    subst h1
    have h2' : obase = some b := by
      cases h2.symm
      rfl
    refine ⟨b, [], h2', rfl, hwf, le_rfl, fun i _ => rfl, hb, by simp, ?_⟩
    intro j hj
    simp at hj
  | cons d rest ih =>
    intro store b hwf hb hds store2 obase h
    simp only [rebaseChain] at h
    cases hrb : rebaseCommit store d b with
    | none =>
      rw [hrb] at h
      simp only [Prod.mk.injEq] at h
      exact Option.noConfusion h.2
    | some pr =>
      obtain ⟨store1, d1⟩ := pr
      rw [hrb] at h
      have hd : d < store.length := hds d (by simp)
      obtain ⟨⟨ext, hexte⟩, hwf1, hd1, hlen1, hpar1, hmsg1, hauth1, htime1⟩ :=
        rebaseCommit_spec hwf hd hb hrb
      have hrest : ∀ x ∈ rest, x < store1.length :=
        fun x hx => lt_of_lt_of_le (hds x (by simp [hx])) hlen1
      obtain ⟨tip, ns', hob, hlen, hwf2, hlen2, hstab2, htip, hchain2, hmeta⟩ :=
        ih store1 d1 hwf1 hd1 hrest store2 obase h
      refine ⟨tip, d1 :: ns', hob, by simp [hlen], hwf2,
        le_trans hlen1 hlen2, ?_, htip, ?_, ?_⟩
      · intro i hi
        rw [hstab2 i (lt_of_lt_of_le hi hlen1), hexte,
          getElem?_append_lt _ _ _ hi]
      · rw [hchain2, chain_parent_some hwf1 hpar1]
        have hcb : chain store1 b = chain store b := by
          rw [hexte]
          exact chain_append hwf hb
        rw [hcb, List.reverse_cons, List.append_assoc]
        rfl
      · intro j hj
        cases j with
        | zero =>
          refine ⟨d1, d, by simp, by simp, ?_, ?_, ?_⟩
          · rw [msgOf_congr (hstab2 d1 hd1), hmsg1]
          · rw [authorOf_congr (hstab2 d1 hd1), hauth1]
          · rw [timeOf_congr (hstab2 d1 hd1), htime1]
        | succ j =>
          have hj' : j < rest.length := by simpa using hj
          obtain ⟨nj, dj, hn, hdj, hm, ha, ht⟩ := hmeta j hj'
          have hdjl : dj < store.length := hds dj (by
            have := List.getElem?_mem hdj
            simp [this])
          have hconv : msgOf store1 dj = msgOf store dj := by
            rw [hexte]; exact msgOf_append hdjl
          have hconva : authorOf store1 dj = authorOf store dj := by
            rw [hexte]; exact authorOf_append hdjl
          have hconvt : timeOf store1 dj = timeOf store dj := by
            rw [hexte]; exact timeOf_append hdjl
          exact ⟨nj, dj, by simpa using hn, by simpa using hdj,
            by rw [hm, hconv], by rw [ha, hconva], by rw [ht, hconvt]⟩

/-- The rebase fold degenerates to the identity on a parent-linked
segment of existing commits: every step takes the gitrevise shortcut, so
no object is created and the final base is the last element. -/
lemma rebaseChain_shortcut :
    ∀ (rest : List Nat) (store : Store) (d : Nat),
      d < store.length → (∀ x ∈ rest, x < store.length) →
      List.Chain' (fun a b => parentOf store b = some a) (d :: rest) →
      ∃ lastv, (d :: rest).getLast? = some lastv ∧
        rebaseChain store (some d) rest = (store, some (some lastv)) := by
  intro rest
  induction rest with
  | nil =>
    intro store d _ _ _
    exact ⟨d, rfl, rfl⟩
  | cons e rest' ih =>
    intro store d hd hmem hch
    have hpe : parentOf store e = some d := by
      have := List.chain'_cons.mp hch
      exact this.1
    have hel : e < store.length := hmem e (by simp)
    obtain ⟨lastv, hl, hrc⟩ :=
      ih store e hel (fun x hx => hmem x (by simp [hx]))
        (List.chain'_cons.mp hch).2
    refine ⟨lastv, by rw [List.getLast?_cons_cons]; exact hl, ?_⟩
    show rebaseChain store (some d) (e :: rest') = (store, some (some lastv))
    simp only [rebaseChain]
    have hee : store[e]? = some store[e] := List.getElem?_eq_getElem hel
    have hdd : store[d]? = some store[d] := List.getElem?_eq_getElem hd
    have hpar : store[e].parent = some d := by
      unfold parentOf at hpe
      rw [hee] at hpe
      simpa using hpe
    have hrbe : rebaseCommit store e d = some (store, e) := by
      unfold rebaseCommit
      rw [hee, hdd]
      dsimp only
      rw [if_pos hpar]
    rw [hrbe]
    exact hrc

lemma matchesLock_failure {a : AttemptResult} (h : matchesLock a = true) :
    ∃ s, a = .failure s ∧ isConcurrencyError s = true := by
  cases a with
  | success out => simp [matchesLock] at h
  | failure s => exact ⟨s, rfl, by simpa [matchesLock] using h⟩

/-! ## Claim theorems -/

/-- C3 (counterexample): the claim that the executor sleeps 0.5, 1, 2,
4 and 8 seconds between attempts is false on the code.  With every
attempt failing on an index.lock diagnostic the executor makes its
5 attempts but performs only four sleeps, of 0.5, 1, 2 and 4 seconds
(500, 1000, 2000 and 4000 ms): the fifth attempt re-raises without
sleeping, so the doubled 8-second delay is computed into the backoff
variable but never slept. -/
theorem retry_sleeps_counterexample :
    (run_git_command_with_retry (fun _ => .failure "index.lock")).attempts = 5 ∧
    (run_git_command_with_retry (fun _ => .failure "index.lock")).sleeps =
      [500, 1000, 2000, 4000] ∧
    (run_git_command_with_retry (fun _ => .failure "index.lock")).sleeps ≠
      [500, 1000, 2000, 4000, 8000] := by
  refine ⟨by decide, by decide, by decide⟩

/-- C3 (amended): for every run whose first five attempts all fail with
a transient-lock diagnostic, the executor makes exactly 5 attempts,
sleeping 0.5, 1, 2 and 4 seconds between consecutive attempts (four
sleeps for five attempts; the doubling never reaches the 10-second cap),
and then propagates the fifth attempt's error; and for every run whose
first attempt fails with a diagnostic matching none of the signatures,
the error propagates after that first attempt with no sleep. -/
theorem retry_policy (f : Nat → AttemptResult) :
    ((∀ n, n < 5 → matchesLock (f n) = true) →
      (run_git_command_with_retry f).attempts = 5 ∧
      (run_git_command_with_retry f).sleeps = [500, 1000, 2000, 4000] ∧
      ∃ s, f 4 = .failure s ∧
        (run_git_command_with_retry f).result = .error s) ∧
    (∀ s, f 0 = .failure s → isConcurrencyError s = false →
      run_git_command_with_retry f =
        { result := .error s, sleeps := [], attempts := 1 }) := by
  constructor
  · intro hall
    obtain ⟨s0, hf0, hc0⟩ := matchesLock_failure (hall 0 (by norm_num))
    obtain ⟨s1, hf1, hc1⟩ := matchesLock_failure (hall 1 (by norm_num))
    obtain ⟨s2, hf2, hc2⟩ := matchesLock_failure (hall 2 (by norm_num))
    obtain ⟨s3, hf3, hc3⟩ := matchesLock_failure (hall 3 (by norm_num))
    obtain ⟨s4, hf4, hc4⟩ := matchesLock_failure (hall 4 (by norm_num))
    have hrun : run_git_command_with_retry f =
        { result := .error s4, sleeps := [500, 1000, 2000, 4000],
          attempts := 5 } := by
      show retryGo f 5 0 500 [] none = _
      rw [show (5 : Nat) = 4 + 1 from rfl]
      simp only [retryGo, hf0, hf1, hf2, hf3, hf4, hc0, hc1, hc2, hc3, hc4,
        MAX_RETRIES, MAX_BACKOFF]
      norm_num
    rw [hrun]
    exact ⟨rfl, rfl, s4, hf4, rfl⟩
  · intro s hs hc
    show retryGo f 5 0 500 [] none = _
    rw [show (5 : Nat) = 4 + 1 from rfl]
    simp only [retryGo, hs]
    rw [if_neg]
    intro hcontra
    rw [hc] at hcontra
    exact Bool.noConfusion hcontra.1

/-- C3 (witness): the amended policy at two concrete attempt traces. -/
theorem retry_policy_witness :
    ((run_git_command_with_retry (fun _ => .failure "index.lock")).attempts = 5 ∧
     (run_git_command_with_retry (fun _ => .failure "index.lock")).sleeps =
       [500, 1000, 2000, 4000] ∧
     ∃ s, (fun _ => AttemptResult.failure "index.lock") 4 = .failure s ∧
       (run_git_command_with_retry (fun _ => .failure "index.lock")).result =
         .error s) ∧
    run_git_command_with_retry (fun _ => .failure "permission denied") =
      { result := .error "permission denied", sleeps := [], attempts := 1 } :=
  ⟨(retry_policy (fun _ => .failure "index.lock")).1 (by decide),
   (retry_policy (fun _ => .failure "permission denied")).2
     "permission denied" rfl (by decide)⟩

lemma wStore_wf : WFStore wStore := by
  intro i c p h hp
  match i, h with
  | 0, h =>
    simp [wStore] at h
    subst h
    simp at hp
  | 1, h =>
    simp [wStore] at h
    subst h
    simp at hp
    omega
  | 2, h =>
    simp [wStore] at h
    subst h
    simp at hp
    omega
  | (n + 3), h =>
    simp [wStore] at h

/-- C7: calling amend-commit while Last-Commit Memory is empty returns
the usage-error report and performs no repository mutation: the state
(store, branch, index, working tree) and the memory are returned exactly
as they were. -/
theorem fixup_empty_memory (env : Env) (s : St) (files : List String) :
    fixup_commit env none s files =
      { report := usageMsg, state := s, memory := none } := rfl

/-- C8: Last-Commit Memory is written only by a successful create: a
create-commit whose body raises leaves the memory exactly as it was,
and an amend-commit call never modifies the memory at all. -/
theorem memory_single_writer (env : Env) (mem : Option MemEntry) (s : St)
    (files : List String) (message : String) :
    (∀ e s1, gitCommitBody env s files message = (.error e, s1) →
      (git_commit env mem s files message).memory = mem) ∧
    (fixup_commit env mem s files).memory = mem := by
  constructor
  · intro e s1 h
    unfold git_commit
    rw [h]
  · cases mem with
    | none => rfl
    | some m =>
      rcases h : fixupBody env m s files with ⟨r, s1⟩
      simp only [fixup_commit]
      rw [h]
      cases r <;> rfl

/-- C9: both operations return a textual report on every input: the
report of create-commit is either its success format or the rendering
of the raised error, and the report of amend-commit is the usage
message, the rendering of a normal body outcome, or the rendering of
the raised error — every error kind is converted at the operation
boundary, never propagated. -/
theorem operations_report_errors (env : Env) (mem : Option MemEntry) (s : St)
    (files : List String) (message : String) :
    ((∃ cid s1, gitCommitBody env s files message = (.ok cid, s1) ∧
        (git_commit env mem s files message).report =
          "Successfully committed " ++ toString files.length ++
            " file(s) (commit: " ++ toString cid ++ ")") ∨
     (∃ e s1, gitCommitBody env s files message = (.error e, s1) ∧
        (git_commit env mem s files message).report = renderCommitErr e)) ∧
    ((mem = none ∧ (fixup_commit env mem s files).report = usageMsg) ∨
     (∃ m out s1, mem = some m ∧ fixupBody env m s files = (.ok out, s1) ∧
        (fixup_commit env mem s files).report = renderBodyOut files out) ∨
     (∃ m e s1, mem = some m ∧ fixupBody env m s files = (.error e, s1) ∧
        (fixup_commit env mem s files).report = renderFixupErr e)) := by
  constructor
  · rcases h : gitCommitBody env s files message with ⟨r, s1⟩
    cases r with
    | ok cid =>
      refine Or.inl ⟨cid, s1, rfl, ?_⟩
      simp only [git_commit]
      rw [h]
    | error e =>
      refine Or.inr ⟨e, s1, rfl, ?_⟩
      simp only [git_commit]
      rw [h]
  · cases mem with
    | none => exact Or.inl ⟨rfl, rfl⟩
    | some m =>
      rcases h : fixupBody env m s files with ⟨r, s1⟩
      cases r with
      | ok out =>
        refine Or.inr (Or.inl ⟨m, out, s1, rfl, ?_, ?_⟩)
        · exact h
        · simp only [fixup_commit]
          rw [h]
      | error e =>
        refine Or.inr (Or.inr ⟨m, e, s1, rfl, ?_, ?_⟩)
        · exact h
        · simp only [fixup_commit]
          rw [h]

/-- C6: after a successful create-commit, Last-Commit Memory holds
exactly the identity of the new branch tip and the message passed to
the call (and the new tip is the commit the body created). -/
theorem create_commit_records_memory (env : Env) (mem : Option MemEntry)
    (s : St) (files : List String) (message : String) (cid : Nat) (s1 : St)
    (h : gitCommitBody env s files message = (.ok cid, s1)) :
    git_commit env mem s files message =
      { report := "Successfully committed " ++ toString files.length ++
          " file(s) (commit: " ++ toString cid ++ ")",
        state := s1, memory := some { hash := cid, message := message } } ∧
    s1.branch = some cid := by
  refine ⟨by simp only [git_commit]; rw [h], ?_⟩
  unfold gitCommitBody at h
  simp only [] at h
  repeat' split at h
  all_goals injection h with h1 h2
  all_goals
    first
    | exact Except.noConfusion h1
    | (injection h1 with h1
       subst h1
       subst h2
       rfl)

/-- C6 (witness): a successful create-commit on the concrete state. -/
theorem create_commit_records_memory_witness :
    git_commit cleanEnv none wState ["f"] "msg3" =
      { report := "Successfully committed " ++ toString (["f"] : List String).length ++
          " file(s) (commit: " ++ toString 3 ++ ")",
        state := (gitCommitBody cleanEnv wState ["f"] "msg3").2,
        memory := some { hash := 3, message := "msg3" } } ∧
    (gitCommitBody cleanEnv wState ["f"] "msg3").2.branch = some 3 :=
  create_commit_records_memory cleanEnv none wState ["f"] "msg3" 3
    (gitCommitBody cleanEnv wState ["f"] "msg3").2 (by decide)

/-- C8 (witness): a failing create-commit (the commit call itself
fails) and an amend-commit both leave a pre-existing memory entry
untouched. -/
theorem memory_single_writer_witness :
    ((git_commit (fun k => if k = 1 then some "locked" else none)
        (some { hash := 7, message := "old" }) wState ["f"] "msg").memory =
      some { hash := 7, message := "old" }) ∧
    (fixup_commit cleanEnv (some { hash := 1, message := "m1" }) wState
        ["f"]).memory = some { hash := 1, message := "m1" } :=
  ⟨(memory_single_writer (fun k => if k = 1 then some "locked" else none)
      (some { hash := 7, message := "old" }) wState ["f"] "msg").1
      (.cpe "locked")
      { wState with index := stageFiles wState.work ["f"] wState.index }
      (by decide),
   (memory_single_writer cleanEnv (some { hash := 1, message := "m1" })
      wState ["f"] "msg").2⟩

lemma generalRest_branch (env : Env) (s : St) (head t k : Nat)
    (r : Except PyErr BodyOut) (s1 : St)
    (h : generalRest env s head t k = (r, s1))
    (hf : isGeneralSuccess r = false) : s1.branch = s.branch := by
  unfold generalRest at h
  simp only [] at h
  repeat' split at h
  all_goals injection h with h1 h2
  all_goals subst h2
  all_goals first
    | rfl
    | (rw [← h1] at hf
       simp [isGeneralSuccess] at hf)

lemma enteredGeneral_spec {env : Env} {m : MemEntry} {s : St}
    (hg : enteredGeneral env (some m) s = true) :
    env 0 = none ∧ env 1 = none ∧
      ∃ head, s.branch = some head ∧ m.hash ≠ head := by
  unfold enteredGeneral at hg
  cases h0 : env 0 with
  | some e => rw [h0] at hg; simp at hg
  | none =>
    rw [h0] at hg
    cases hbr : s.branch with
    | none => rw [hbr] at hg; simp at hg
    | some head =>
      rw [hbr] at hg
      cases h1 : env 1 with
      | some e => rw [h1] at hg; simp at hg
      | none =>
        rw [h1] at hg
        simp only [decide_eq_true_eq] at hg
        exact ⟨rfl, rfl, head, rfl, hg⟩

lemma fixupBody_failure_branch (env : Env) (m : MemEntry) (s : St)
    (files : List String) (head : Nat)
    (h0 : env 0 = none) (hbr : s.branch = some head) (h1 : env 1 = none)
    (hne : m.hash ≠ head)
    (r : Except PyErr BodyOut) (s1 : St)
    (h : fixupBody env m s files = (r, s1))
    (hf : isGeneralSuccess r = false) : s1.branch = s.branch := by
  unfold fixupBody at h
  rw [h0, hbr, h1] at h
  simp only [] at h
  rw [if_neg hne] at h
  rcases hr : resolveTarget env
      { store := s.store, branch := some head,
        index := stageFiles s.work files s.index, work := s.work }
      head m.hash m.message with e | ro
  · rw [hr] at h
    injection h with h1 h2
    subst h2
    rw [hbr]
  · rw [hr] at h
    cases ro with
    | noMatch =>
      injection h with h1 h2
      subst h2
      rw [hbr]
    | found t k =>
      rw [hbr]
      exact generalRest_branch env _ head t k r s1 h hf

/-- C1: an invocation of amend-commit that takes the general rewrite
path and does not reach a successful publish leaves the branch pointer
exactly where it was: the body's resulting state names the same tip as
before the call, and so does the state returned by the operation — no
partial rewritten history is ever published. -/
theorem fixup_general_failure_frame (env : Env) (m : MemEntry) (s : St)
    (files : List String)
    (hg : enteredGeneral env (some m) s = true)
    (hf : isGeneralSuccess (fixupBody env m s files).1 = false) :
    (fixupBody env m s files).2.branch = s.branch ∧
    (fixup_commit env (some m) s files).state.branch = s.branch := by
  obtain ⟨h0, h1, head, hbr, hne⟩ := enteredGeneral_spec hg
  rcases hfb : fixupBody env m s files with ⟨r, s1⟩
  rw [hfb] at hf
  have hbranch : s1.branch = s.branch :=
    fixupBody_failure_branch env m s files head h0 hbr h1 hne r s1 hfb hf
  constructor
  · exact hbranch
  · simp only [fixup_commit]
    rw [hfb]
    cases r <;> simpa using hbranch

/-- C1 (witness): with the write-tree call failing, the general path is
entered on the concrete state and the branch pointer is unmoved. -/
theorem fixup_general_failure_frame_witness :
    (fixupBody envFail3 { hash := 1, message := "m1" } wState ["f"]).2.branch =
      wState.branch ∧
    (fixup_commit envFail3 (some { hash := 1, message := "m1" }) wState
        ["f"]).state.branch = wState.branch :=
  fixup_general_failure_frame envFail3 { hash := 1, message := "m1" } wState
    ["f"] (by decide) (by decide)

/-- C4: the Commit Locator resolves in order: an identity that still
denotes an existing commit is returned as the target; otherwise the log
reachable from the tip is scanned newest-first for an entry whose
message is an exact full match of the remembered message, and the first
such entry is returned; with no match the locator reports no match, and
the resulting not-found report names both the identity and the
message. -/
theorem commit_locator_resolution (s : St) (head h : Nat) (msg : String)
    (files : List String) :
    (h < s.store.length → resolveTarget cleanEnv s head h msg = .ok (.found h 3)) ∧
    (¬ h < s.store.length →
      (∀ t rest, logGrep s head msg = t :: rest →
        resolveTarget cleanEnv s head h msg = .ok (.found t 4) ∧
        (chain s.store head).find? (fun o => msgOf s.store o == some msg) =
          some t ∧
        msgOf s.store t = some msg) ∧
      (logGrep s head msg = [] →
        resolveTarget cleanEnv s head h msg = .ok .noMatch ∧
        renderBodyOut files (.notFound h msg) =
          "Error: Could not find commit with hash " ++ toString h ++
            " or message " ++ msg)) := by
  refine ⟨?_, fun hg => ⟨?_, ?_⟩⟩
  · intro hl
    unfold resolveTarget
    simp only [cleanEnv]
    rw [if_pos hl]
  · intro t rest hl
    refine ⟨?_, ?_, ?_⟩
    · unfold resolveTarget resolveByMessage
      simp only [cleanEnv]
      rw [if_neg hg, hl]
    · have hff := filter_head?_eq_find?
        (fun o => msgOf s.store o == some msg) (chain s.store head)
      unfold logGrep at hl
      rw [hl] at hff
      simpa using hff.symm
    · have ht : t ∈ logGrep s head msg := by
        rw [hl]; simp
      unfold logGrep at ht
      have hmem := List.of_mem_filter ht
      simpa using hmem
  · intro hl
    refine ⟨?_, rfl⟩
    unfold resolveTarget resolveByMessage
    simp only [cleanEnv]
    rw [if_neg hg, hl]

/-- C4 (witness): the three locator behaviours at concrete inputs:
resolution by a still-existing identity, fallback resolution by exact
message when the identity is gone, and the no-match outcome. -/
theorem commit_locator_resolution_witness :
    resolveTarget cleanEnv wState 2 1 "zz" = .ok (.found 1 3) ∧
    (resolveTarget cleanEnv wState 2 9 "m1" = .ok (.found 1 4) ∧
      (chain wState.store 2).find?
        (fun o => msgOf wState.store o == some "m1") = some 1 ∧
      msgOf wState.store 1 = some "m1") ∧
    (resolveTarget cleanEnv wState 2 9 "zz" = .ok .noMatch ∧
      renderBodyOut ([] : List String) (.notFound 9 "zz") =
        "Error: Could not find commit with hash " ++ toString 9 ++
          " or message " ++ "zz") :=
  ⟨(commit_locator_resolution wState 2 1 "zz" []).1 (by decide),
   ((commit_locator_resolution wState 2 9 "m1" []).2 (by decide)).1 1 []
     (by decide),
   ((commit_locator_resolution wState 2 9 "zz" []).2 (by decide)).2
     (by decide)⟩

/-- C5: when the remembered identity equals the current branch tip, the
fast path amends the tip in place: the body returns the fast outcome,
the new tip's parent equals the old tip's parent, and the total chain
length from the new tip to the root equals the old one (one commit is
replaced, none is added to the chain). -/
theorem fixup_fast_path (m : MemEntry) (s : St) (files : List String)
    (head : Nat) (c : CommitObj)
    (hwf : WFStore s.store)
    (hh : head < s.store.length)
    (hb : s.branch = some head)
    (hc : s.store[head]? = some c)
    (hm : m.hash = head) :
    fixupBody cleanEnv m s files =
      (.ok (.fast m.hash),
       { store := s.store ++ [{ c with tree := stageFiles s.work files s.index }],
         branch := some s.store.length,
         index := stageFiles s.work files s.index, work := s.work }) ∧
    parentOf (s.store ++ [{ c with tree := stageFiles s.work files s.index }])
        s.store.length = parentOf s.store head ∧
    (chain (s.store ++ [{ c with tree := stageFiles s.work files s.index }])
        s.store.length).length = (chain s.store head).length := by
  have hpnew : parentOf
      (s.store ++ [{ c with tree := stageFiles s.work files s.index }])
      s.store.length = c.parent := by
    unfold parentOf
    rw [List.getElem?_concat_length]
    rfl
  have hpold : parentOf s.store head = c.parent := by
    unfold parentOf
    rw [hc]
    rfl
  have hple : ∀ p, c.parent = some p → p < s.store.length := by
    intro p hp
    exact lt_trans (hwf head c p hc hp) hh
  have hwf2 : WFStore
      (s.store ++ [{ c with tree := stageFiles s.work files s.index }]) :=
    WFStore_snoc hwf (by
      intro p hp
      exact hple p hp)
  refine ⟨?_, by rw [hpnew, hpold], ?_⟩
  · unfold fixupBody
    simp only [cleanEnv]
    rw [hb]
    simp only []
    rw [if_pos hm]
    rw [show (St.mk s.store (some head) (stageFiles s.work files s.index)
        s.work).store[head]? = some c from hc]
  · cases hcp : c.parent with
    | none =>
      rw [hcp] at hpnew hpold
      rw [chain_parent_none hpnew, chain_parent_none hpold]
      simp
    | some p =>
      rw [hcp] at hpnew hpold hwf2
      have hpl : p < s.store.length := hple p hcp
      rw [chain_parent_some hwf2 hpnew, chain_parent_some hwf hpold,
        chain_append hwf hpl]
      simp

/-- C5 (witness): fast-path amend on the concrete state at its tip. -/
theorem fixup_fast_path_witness :
    fixupBody cleanEnv { hash := 2, message := "m2" } wState ["f"] =
      (.ok (.fast 2),
       { store := wState.store ++
           [{ parent := some 1,
              tree := stageFiles wState.work ["f"] wState.index,
              author := "au", message := "m2", timestamp := 2 }],
         branch := some wState.store.length,
         index := stageFiles wState.work ["f"] wState.index,
         work := wState.work }) ∧
    parentOf (wState.store ++
        [{ parent := some 1,
           tree := stageFiles wState.work ["f"] wState.index,
           author := "au", message := "m2", timestamp := 2 }])
        wState.store.length = parentOf wState.store 2 ∧
    (chain (wState.store ++
        [{ parent := some 1,
           tree := stageFiles wState.work ["f"] wState.index,
           author := "au", message := "m2", timestamp := 2 }])
        wState.store.length).length = (chain wState.store 2).length :=
  fixup_fast_path { hash := 2, message := "m2" } wState ["f"] 2
    { parent := some 1, tree := [("a", "1"), ("b", "2"), ("c", "3")],
      author := "au", message := "m2", timestamp := 2 }
    wStore_wf (by decide) (by decide) (by decide) (by decide)

/-- C10: in a non-empty-memory amend-commit call the files are staged
before the target is resolved, so when resolution fails by identity and
by message the operation returns the not-found report with the staged
index kept: the final state is exactly the initial state with the index
replaced by the staged one (store, branch and working tree untouched),
and the staging is not rolled back. -/
theorem fixup_not_found_keeps_staged_index (m : MemEntry) (s : St)
    (files : List String) (head : Nat)
    (hb : s.branch = some head)
    (hne : m.hash ≠ head)
    (hgone : ¬ m.hash < s.store.length)
    (hnomsg : logGrep s head m.message = []) :
    fixup_commit cleanEnv (some m) s files =
      { report := renderBodyOut files (.notFound m.hash m.message),
        state := { s with index := stageFiles s.work files s.index },
        memory := some m } := by
  have hnomsg' : logGrep
      { store := s.store, branch := some head,
        index := stageFiles s.work files s.index, work := s.work } head
      m.message = [] := by
    simpa [logGrep] using hnomsg
  have hgone' : ¬ m.hash <
      ({ store := s.store, branch := some head,
         index := stageFiles s.work files s.index, work := s.work } : St).store.length := by
    simpa using hgone
  have hres : resolveTarget cleanEnv
      { store := s.store, branch := some head,
        index := stageFiles s.work files s.index, work := s.work } head
      m.hash m.message = .ok .noMatch := by
    unfold resolveTarget resolveByMessage
    simp only [cleanEnv]
    rw [if_neg hgone', hnomsg']
  have hbody : fixupBody cleanEnv m s files =
      (.ok (.notFound m.hash m.message),
       { store := s.store, branch := some head,
         index := stageFiles s.work files s.index, work := s.work }) := by
    unfold fixupBody
    simp only [cleanEnv]
    rw [hb]
    simp only []
    rw [if_neg hne]
    rw [hres]
  simp only [fixup_commit]
  rw [hbody]
  rw [hb]

/-- C10 (witness): a not-found amend-commit on the concrete state keeps
the staged file in the index. -/
theorem fixup_not_found_keeps_staged_index_witness :
    fixup_commit cleanEnv (some { hash := 9, message := "zz" }) wState ["f"] =
      { report := renderBodyOut ["f"] (.notFound 9 "zz"),
        state := { wState with
          index := stageFiles wState.work ["f"] wState.index },
        memory := some { hash := 9, message := "zz" } } :=
  fixup_not_found_keeps_staged_index { hash := 9, message := "zz" } wState
    ["f"] 2 (by decide) (by decide) (by decide) (by decide)

lemma walkAfter_of_chain_decomp {store : Store} (hwf : WFStore store)
    {head b : Nat} {pre tl : List Nat}
    (hchain : chain store head = pre ++ b :: tl) :
    walkAfter store (some b) head = some pre.reverse := by
  have hpw := chain_pairwise_lt hwf head
  rw [hchain] at hpw
  rw [List.pairwise_append] at hpw
  have hne : ∀ x ∈ pre, x ≠ b := by
    intro x hx
    have := hpw.2.2 x hx b (by simp)
    omega
  unfold walkAfter
  rw [hchain]
  show (if b ∈ pre ++ b :: tl then
      some ((pre ++ b :: tl).takeWhile (fun x => x != b)).reverse
    else none) = some pre.reverse
  rw [if_pos (by simp : b ∈ pre ++ b :: tl)]
  rw [takeWhile_middle pre tl hne]

lemma chain'_parentOf_append {store ext : Store} :
    ∀ (l : List Nat), (∀ x ∈ l, x < store.length) →
      List.Chain' (fun a b => parentOf store b = some a) l →
      List.Chain' (fun a b => parentOf (store ++ ext) b = some a) l := by
  intro l
  induction l with
  | nil => intro _ _; simp
  | cons a l' ih =>
    intro hb hch
    rw [List.chain'_cons'] at hch ⊢
    obtain ⟨hlink, htail⟩ := hch
    refine ⟨?_, ih (fun x hx => hb x (by simp [hx])) htail⟩
    intro y hy
    have hyl : y < store.length := by
      cases l' with
      | nil => simp at hy
      | cons z zs =>
        simp at hy
        subst hy
        exact hb z (by simp)
    rw [parentOf_append hyl]
    exact hlink y hy

lemma chain'_parent_reverse {store : Store} (hwf : WFStore store)
    (head : Nat) :
    List.Chain' (fun a b => parentOf store b = some a)
      (chain store head).reverse := by
  rw [List.chain'_reverse]
  have h := chain_chain'_parent hwf head
  simpa [flip] using h

lemma generalRest_success_spec
    (s : St) (head t k tip t2 : Nat) (tc : CommitObj) (ds : List Nat) (s1 : St)
    (hwf : WFStore s.store) (hh : head < s.store.length)
    (hne : t ≠ head) (htl : t < s.store.length)
    (htc : s.store[t]? = some tc)
    (hchain : chain s.store head = (t :: ds).reverse ++ (chain s.store t).tail)
    (hsucc : generalRest cleanEnv s head t k = (.ok (.general t2 tip), s1)) :
    ∃ ns : List Nat,
      ns.length = ds.length + 1 ∧
      s1.branch = some tip ∧
      chain s1.store tip = ns.reverse ++ (chain s.store t).tail ∧
      (∀ j, j < ds.length + 1 →
        ∃ nj oj, ns[j]? = some nj ∧ (t :: ds)[j]? = some oj ∧
          msgOf s1.store nj = msgOf s.store oj ∧
          authorOf s1.store nj = authorOf s.store oj ∧
          timeOf s1.store nj = timeOf s.store oj) ∧
      (∀ i, i < s.store.length → s1.store[i]? = s.store[i]?) := by
  have hds_lt : ∀ x ∈ ds, x < s.store.length := by
    intro x hx
    have hxc : x ∈ chain s.store head := by
      rw [hchain]
      exact List.mem_append_left _ (by simp [hx])
    exact lt_of_le_of_lt (chain_mem_le hwf head x hxc) hh
  obtain ⟨pc, tr, au, ms, ts⟩ := tc
  unfold generalRest at hsucc
  rw [htc] at hsucc
  simp only [cleanEnv] at hsucc
  cases pc with
  | some bp =>
    dsimp only at hsucc
    have hbp : parentOf s.store t = some bp := by
      unfold parentOf
      rw [htc]
      rfl
    have hbpt : bp < t := hwf t _ bp htc rfl
    have hbpl : bp < s.store.length := lt_trans hbpt htl
    have hchaint : chain s.store t = t :: chain s.store bp :=
      chain_parent_some hwf hbp
    have htail : (chain s.store t).tail = chain s.store bp := by
      rw [hchaint]
      rfl
    obtain ⟨tl2, htl2⟩ := chain_eq_cons s.store bp
    have hwf1 : WFStore (s.store ++
        [{ parent := some bp, tree := s.index, author := au,
           message := ms, timestamp := ts }]) := by
      refine WFStore_snoc hwf ?_
      intro p hp
      simp only at hp
      cases hp
      exact hbpl
    have hch1 : chain (s.store ++
        [{ parent := some bp, tree := s.index, author := au,
           message := ms, timestamp := ts }]) head = chain s.store head :=
      chain_append hwf hh
    have hdecomp : chain (s.store ++
        [{ parent := some bp, tree := s.index, author := au,
           message := ms, timestamp := ts }]) head =
        (t :: ds).reverse ++ bp :: tl2 := by
      rw [hch1, hchain, htail, htl2]
    have hwalk : walkAfter (s.store ++
        [{ parent := some bp, tree := s.index, author := au,
           message := ms, timestamp := ts }]) (some bp) head =
        some (t :: ds) := by
      have hres := walkAfter_of_chain_decomp hwf1 hdecomp
      simpa using hres
    rw [hwalk] at hsucc
    dsimp only at hsucc
    rw [replaceFirst_cons_self ds t (List.length s.store)] at hsucc
    have hlook1 : (s.store ++
        [{ parent := some bp, tree := s.index, author := au,
           message := ms, timestamp := ts }])[List.length s.store]? =
        some { parent := some bp, tree := s.index, author := au,
               message := ms, timestamp := ts } :=
      List.getElem?_concat_length _ _
    have hlook2 : (s.store ++
        [{ parent := some bp, tree := s.index, author := au,
           message := ms, timestamp := ts }])[bp]? = some s.store[bp] := by
      rw [getElem?_append_lt _ _ _ hbpl]
      exact List.getElem?_eq_getElem hbpl
    have hstep : rebaseChain (s.store ++
        [{ parent := some bp, tree := s.index, author := au,
           message := ms, timestamp := ts }]) (some bp)
        (List.length s.store :: ds) =
        rebaseChain (s.store ++
        [{ parent := some bp, tree := s.index, author := au,
           message := ms, timestamp := ts }])
          (some (List.length s.store)) ds := by
      simp only [rebaseChain]
      unfold rebaseCommit
      rw [hlook1, hlook2]
      dsimp only
      rw [if_pos rfl]
    rw [hstep] at hsucc
    rcases hrc : rebaseChain (s.store ++
        [{ parent := some bp, tree := s.index, author := au,
           message := ms, timestamp := ts }])
        (some (List.length s.store)) ds with ⟨store2, ob⟩
    rw [hrc] at hsucc
    cases ob with
    | none => simp at hsucc
    | some obase =>
      obtain ⟨tip', ns', hob, hlen', hwf2, hlen2, hstab, htip', hchain2, hmeta⟩ :=
        rebaseChain_spec ds _ (List.length s.store) hwf1
          (by simp)
          (fun d hd => lt_of_lt_of_le (hds_lt d hd) (by simp)) store2 obase hrc
      subst hob
      dsimp only at hsucc
      rw [List.getElem?_eq_getElem htip'] at hsucc
      dsimp only at hsucc
      injection hsucc with h1 h2
      injection h1 with h1
      cases h1
      subst h2
      have hnewlt : List.length s.store < List.length (s.store ++
          [({ parent := some bp, tree := s.index, author := au,
              message := ms, timestamp := ts } : CommitObj)]) := by simp
      have hpar1 : parentOf (s.store ++
          [{ parent := some bp, tree := s.index, author := au,
             message := ms, timestamp := ts }]) (List.length s.store) =
          some bp := by
        unfold parentOf
        rw [hlook1]
        rfl
      have hchn : chain (s.store ++
          [{ parent := some bp, tree := s.index, author := au,
             message := ms, timestamp := ts }]) (List.length s.store) =
          List.length s.store :: chain s.store bp := by
        rw [chain_parent_some hwf1 hpar1, chain_append hwf hbpl]
      refine ⟨List.length s.store :: ns', by simp [hlen'], rfl, ?_, ?_, ?_⟩
      · show chain store2 tip = _
        rw [hchain2, hchn, htail]
        simp
      · intro j hj
        cases j with
        | zero =>
          refine ⟨List.length s.store, t, by simp, by simp, ?_, ?_, ?_⟩
          · show msgOf store2 (List.length s.store) = msgOf s.store t
            rw [msgOf_congr (hstab _ hnewlt)]
            unfold msgOf
            rw [hlook1, htc]
            rfl
          · show authorOf store2 (List.length s.store) = authorOf s.store t
            rw [authorOf_congr (hstab _ hnewlt)]
            unfold authorOf
            rw [hlook1, htc]
            rfl
          · show timeOf store2 (List.length s.store) = timeOf s.store t
            rw [timeOf_congr (hstab _ hnewlt)]
            unfold timeOf
            rw [hlook1, htc]
            rfl
        | succ j =>
          have hj' : j < ds.length := by omega
          obtain ⟨nj, dj, hn, hdj, hm, ha, ht⟩ := hmeta j hj'
          have hdjl : dj < s.store.length :=
            hds_lt dj (List.getElem?_mem hdj)
          refine ⟨nj, dj, by simpa using hn, by simpa using hdj, ?_, ?_, ?_⟩
          · rw [hm, msgOf_append hdjl]
          · rw [ha, authorOf_append hdjl]
          · rw [ht, timeOf_append hdjl]
      · intro i hi
        show store2[i]? = s.store[i]?
        rw [hstab i (by simp; omega), getElem?_append_lt _ _ _ hi]
  | none =>
    dsimp only at hsucc
    have hpt : parentOf s.store t = none := by
      unfold parentOf
      rw [htc]
      rfl
    have hchaint : chain s.store t = [t] := chain_parent_none hpt
    have htail : (chain s.store t).tail = [] := by
      rw [hchaint]
      rfl
    have hchain' : chain s.store head = ds.reverse ++ [t] := by
      rw [hchain, htail]
      simp
    have hwf1 : WFStore (s.store ++
        [{ parent := none, tree := s.index, author := au,
           message := ms, timestamp := ts }]) := by
      refine WFStore_snoc hwf ?_
      intro p hp
      simp only at hp
      exact Option.noConfusion hp
    have hch1 : chain (s.store ++
        [{ parent := none, tree := s.index, author := au,
           message := ms, timestamp := ts }]) head = chain s.store head :=
      chain_append hwf hh
    have hdecomp : chain (s.store ++
        [{ parent := none, tree := s.index, author := au,
           message := ms, timestamp := ts }]) head =
        ds.reverse ++ t :: [] := by
      rw [hch1, hchain']
    have hwalk : walkAfter (s.store ++
        [{ parent := none, tree := s.index, author := au,
           message := ms, timestamp := ts }]) (some t) head = some ds := by
      have hres := walkAfter_of_chain_decomp hwf1 hdecomp
      simpa using hres
    rw [hwalk] at hsucc
    simp only [Option.map_some'] at hsucc
    have hpw := chain_pairwise_lt hwf head
    rw [hchain', List.pairwise_append] at hpw
    have htds : t ∉ ds := by
      intro hmem
      have := hpw.2.2 t (by simpa using hmem) t (by simp)
      omega
    rw [replaceFirst_of_not_mem ds t (List.length s.store) htds] at hsucc
    cases hds : ds with
    | nil =>
      exfalso
      rw [hds] at hchain'
      have hh0 := chain_head s.store head
      rw [hchain'] at hh0
      simp at hh0
      exact hne hh0
    | cons d1 rest =>
      subst hds
      have hchp : List.Chain' (fun a b => parentOf s.store b = some a)
          (t :: d1 :: rest) := by
        have hrev : (chain s.store head).reverse = t :: d1 :: rest := by
          rw [hchain']
          simp
        have := chain'_parent_reverse hwf head
        rwa [hrev] at this
      have hchp2 : List.Chain' (fun a b => parentOf s.store b = some a)
          (d1 :: rest) := hchp.tail
      have hchp3 : List.Chain' (fun a b =>
          parentOf (s.store ++
            [{ parent := none, tree := s.index, author := au,
               message := ms, timestamp := ts }]) b = some a)
          (d1 :: rest) :=
        chain'_parentOf_append (d1 :: rest)
          (fun x hx => hds_lt x hx) hchp2
      obtain ⟨lastv, hlast, hsc⟩ := rebaseChain_shortcut rest
        (s.store ++ [{ parent := none, tree := s.index, author := au,
                       message := ms, timestamp := ts }]) d1
        (lt_of_lt_of_le (hds_lt d1 (by simp)) (by simp))
        (fun x hx => lt_of_lt_of_le (hds_lt x (by simp [hx])) (by simp))
        hchp3
      rw [show rebaseChain (s.store ++
          [{ parent := none, tree := s.index, author := au,
             message := ms, timestamp := ts }]) none (d1 :: rest) =
          rebaseChain (s.store ++
          [{ parent := none, tree := s.index, author := au,
             message := ms, timestamp := ts }]) (some d1) rest from rfl,
        hsc] at hsucc
      dsimp only at hsucc
      have hlasthead : head = lastv := by
        have hh0 := chain_head s.store head
        rw [hchain'] at hh0
        have hrevh : (d1 :: rest).reverse.head? = some lastv := by
          rw [List.head?_reverse]
          exact hlast
        rcases hrev : (d1 :: rest).reverse with _ | ⟨x, xs⟩
        · simp [hrev] at hrevh
        · rw [hrev] at hh0 hrevh
          simp at hh0 hrevh
          omega
      subst hlasthead
      have hheadlt : head < List.length (s.store ++
          [({ parent := none, tree := s.index, author := au,
              message := ms, timestamp := ts } : CommitObj)]) := by
        simp
        omega
      rw [List.getElem?_eq_getElem hheadlt] at hsucc
      dsimp only at hsucc
      injection hsucc with h1 h2
      injection h1 with h1
      cases h1
      subst h2
      refine ⟨t :: d1 :: rest, by simp, rfl, ?_, ?_, ?_⟩
      · show chain (s.store ++
            [{ parent := none, tree := s.index, author := au,
               message := ms, timestamp := ts }]) head = _
        rw [hch1, hchain', htail]
        simp
      · intro j hj
        have hjlen : j < (t :: d1 :: rest).length := by
          simp only [List.length_cons] at hj ⊢
          omega
        have hoj : (t :: d1 :: rest)[j]? = some (t :: d1 :: rest)[j] :=
          List.getElem?_eq_getElem hjlen
        have hojmem : (t :: d1 :: rest)[j] ∈ t :: d1 :: rest :=
          List.getElem?_mem hoj
        have hojlt : (t :: d1 :: rest)[j] < s.store.length := by
          rcases List.mem_cons.mp hojmem with h | h
          · rw [h]
            exact htl
          · exact hds_lt _ h
        refine ⟨(t :: d1 :: rest)[j], (t :: d1 :: rest)[j], hoj, hoj, ?_, ?_, ?_⟩
        · exact msgOf_append hojlt
        · exact authorOf_append hojlt
        · exact timeOf_append hojlt
      · intro i hi
        exact getElem?_append_lt _ _ _ hi

/-- C2: for a successful general-path amend-commit whose remembered
commit `t` still resolves by identity and sits `ds.length` commits
behind the tip (`hchain` states that the tip chain is the reversed
segment `t :: ds` on top of the history strictly before `t`), the
published history is a chain of exactly `ds.length + 1` commits from
the rewritten target position to the new tip; position by position
these commits keep the message, author and timestamp of the original
target and descendants (so the descendants keep their relative order),
and every commit strictly before the target — indeed every object of
the original store — is unchanged.  In particular the rewrite never
changes the number of commits in the chain. -/
theorem fixup_general_chain_structure
    (m : MemEntry) (s : St) (files : List String)
    (head t tip t2 : Nat) (tc : CommitObj) (ds : List Nat) (s1 : St)
    (hwf : WFStore s.store)
    (hb : s.branch = some head)
    (hh : head < s.store.length)
    (hm : m.hash = t)
    (hne : t ≠ head)
    (htl : t < s.store.length)
    (htc : s.store[t]? = some tc)
    (hchain : chain s.store head = (t :: ds).reverse ++ (chain s.store t).tail)
    (hsucc : fixupBody cleanEnv m s files = (.ok (.general t2 tip), s1)) :
    ∃ ns : List Nat,
      ns.length = ds.length + 1 ∧
      s1.branch = some tip ∧
      chain s1.store tip = ns.reverse ++ (chain s.store t).tail ∧
      (chain s1.store tip).length =
        (ds.length + 1) + (chain s.store t).tail.length ∧
      (∀ j, j < ds.length + 1 →
        ∃ nj oj, ns[j]? = some nj ∧ (t :: ds)[j]? = some oj ∧
          msgOf s1.store nj = msgOf s.store oj ∧
          authorOf s1.store nj = authorOf s.store oj ∧
          timeOf s1.store nj = timeOf s.store oj) ∧
      (∀ i, i < s.store.length → s1.store[i]? = s.store[i]?) := by
  have hbody : fixupBody cleanEnv m s files =
      generalRest cleanEnv
        { store := s.store, branch := some head,
          index := stageFiles s.work files s.index, work := s.work }
        head t 3 := by
    unfold fixupBody
    simp only [cleanEnv]
    rw [hb]
    simp only []
    rw [if_neg (by rw [hm]; exact hne)]
    have hres : resolveTarget cleanEnv
        { store := s.store, branch := some head,
          index := stageFiles s.work files s.index, work := s.work }
        head m.hash m.message = .ok (.found t 3) := by
      unfold resolveTarget
      simp only [cleanEnv]
      rw [if_pos (by simpa [hm] using htl)]
      rw [hm]
    rw [hres]
  rw [hbody] at hsucc
  obtain ⟨ns, h1, h2, h3, h4, h5⟩ := generalRest_success_spec
    { store := s.store, branch := some head,
      index := stageFiles s.work files s.index, work := s.work }
    head t 3 tip t2 tc ds s1 hwf hh hne htl htc hchain hsucc
  refine ⟨ns, h1, h2, h3, ?_, h4, h5⟩
  rw [h3]
  simp [h1]

/-- C2 (witness): a successful general-path amend on the concrete
state, with the remembered commit one commit behind the tip. -/
theorem fixup_general_chain_structure_witness :
    ∃ ns : List Nat,
      ns.length = ([2] : List Nat).length + 1 ∧
      (fixupBody cleanEnv { hash := 1, message := "m1" } wState
          ["f"]).2.branch = some 4 ∧
      chain (fixupBody cleanEnv { hash := 1, message := "m1" } wState
          ["f"]).2.store 4 = ns.reverse ++ (chain wState.store 1).tail ∧
      (chain (fixupBody cleanEnv { hash := 1, message := "m1" } wState
          ["f"]).2.store 4).length =
        (([2] : List Nat).length + 1) + (chain wState.store 1).tail.length ∧
      (∀ j, j < ([2] : List Nat).length + 1 →
        ∃ nj oj, ns[j]? = some nj ∧ ((1 : Nat) :: [2])[j]? = some oj ∧
          msgOf (fixupBody cleanEnv { hash := 1, message := "m1" } wState
            ["f"]).2.store nj = msgOf wState.store oj ∧
          authorOf (fixupBody cleanEnv { hash := 1, message := "m1" } wState
            ["f"]).2.store nj = authorOf wState.store oj ∧
          timeOf (fixupBody cleanEnv { hash := 1, message := "m1" } wState
            ["f"]).2.store nj = timeOf wState.store oj) ∧
      (∀ i, i < wState.store.length →
        (fixupBody cleanEnv { hash := 1, message := "m1" } wState
          ["f"]).2.store[i]? = wState.store[i]?) :=
  fixup_general_chain_structure { hash := 1, message := "m1" } wState ["f"]
    2 1 4 1
    { parent := some 0, tree := [("a", "1"), ("b", "2")], author := "au",
      message := "m1", timestamp := 1 }
    [2]
    (fixupBody cleanEnv { hash := 1, message := "m1" } wState ["f"]).2
    wStore_wf (by decide) (by decide) (by decide) (by decide) (by decide)
    (by decide) (by decide) (by decide)

end GTW
